import Mathlib

/-!
Shallow embedding of `src/arc_linear_github_mcp/clients/workspace_registry.py`
(class `WorkspaceRegistry`) and proofs about its resolution algorithm.

Modelling conventions:
* Python `dict` (insertion ordered, unique keys) is an association list
  `List (String × α)`; `dictLookup` finds the first binding, `dictInsert`
  overwrites in place or appends, exactly as Python `d[k] = v` does.
* The external collaborator `LinearClient` keeps only the data the registry
  stores in it (`api_key`, `api_url`, `timeout`); Python object identity of a
  client instance is modelled by a creation counter `inst_id` drawn from the
  registry's `next_id` at construction time.
* The remote calls `get_team_by_key` / `list_teams` are oracles passed to the
  operations: `get_team_by_key` on workspace `ws` with key `k` yields a
  `LookupResult` (a team, `None`, or a raised `LinearClientError`), and
  `list_teams` yields `Except String (List Team)` (`error` = raised
  `LinearClientError` with its message).
* Every remote call and every client shutdown is recorded as an `Event` so
  that "zero remote lookups" and "close exactly once" are statable.
* Raised Python exceptions are `Except.error msg`.  Team keys and workspace
  names are ASCII in this system, so Python `str.upper()` is embedded as
  ASCII upper-casing.
* The digit class that the host regex engine gives `\d` in a `str` pattern
  (every Unicode decimal digit, not just ASCII `0-9`) is implemented by the
  external `re` collaborator, not by this repository; the issue-identifier
  parser therefore takes that class as a parameter `reDigit`.  Concrete
  witnesses instantiate it with the ASCII digits and use ASCII-only inputs,
  on which every `\d` class agrees (ASCII `0-9` are decimal digits in every
  such class; letters, the dash and the newline are in none).
-/

/-- A single quote character, used to reproduce the source's error messages. -/
def quoteStr : String := ⟨[Char.ofNat 39]⟩

/-- ASCII upper-casing, the embedding of Python `str.upper()` on the ASCII
team keys this system uses. -/
def strUpper (s : String) : String := String.mk (s.toList.map Char.toUpper)

/-- First-binding lookup in an insertion-ordered dict. -/
def dictLookup {α : Type} : List (String × α) → String → Option α
  | [], _ => none
  | (k, v) :: rest, key => if k = key then some v else dictLookup rest key

/-- Python `d[k] = v`: overwrite in place if present, else append. -/
def dictInsert {α : Type} : List (String × α) → String → α → List (String × α)
  | [], key, v => [(key, v)]
  | (k, w) :: rest, key, v =>
    if k = key then (k, v) :: rest else (k, w) :: dictInsert rest key v

/-- `models/linear.py` `Team` (the fields the registry uses). -/
structure Team where
  id : String
  name : String
  key : String
deriving DecidableEq, Repr

/-- The collaborator client as stored by the registry: constructor arguments
plus a creation counter standing for Python object identity. -/
structure LinearClient where
  api_key : String
  api_url : String
  timeout : Nat
  inst_id : Nat
deriving DecidableEq, Repr

/-- Outcome of one `await client.get_team_by_key(key)` call. -/
inductive LookupResult where
  | found (t : Team)
  | noTeam
  | clientError
deriving DecidableEq, Repr

/-- Does the lookup return a team? -/
def LookupResult.isFound : LookupResult → Bool
  | .found _ => true
  | .noTeam => false
  | .clientError => false

/-- Oracle for `get_team_by_key`: workspace name and team key to result. -/
def TeamOracle : Type := String → String → LookupResult

/-- Oracle for `list_teams`: workspace name to teams or raised error message. -/
def ListOracle : Type := String → Except String (List Team)

/-- Observable side effects of registry operations. -/
inductive Event where
  | lookup (ws : String) (key : String)
  | close (c : LinearClient)
deriving DecidableEq, Repr

/-- State of a `WorkspaceRegistry` (`__init__`, lines 21-38): configured
workspaces (name to API key, configuration order), connection parameters, the
lazily created clients, the team-key cache, and the identity counter. -/
structure WorkspaceRegistry where
  workspaces : List (String × String)
  api_url : String
  timeout : Nat
  clients : List (String × LinearClient)
  team_cache : List (String × String)
  next_id : Nat
deriving DecidableEq, Repr

/-- `WorkspaceRegistry.__init__`: empty client map and empty team cache. -/
def mkRegistry (workspaces : List (String × String)) (api_url : String)
    (timeout : Nat) : WorkspaceRegistry :=
  ⟨workspaces, api_url, timeout, [], [], 0⟩

/-- `workspace_names` property: configured names in configuration order. -/
def workspace_names (r : WorkspaceRegistry) : List String :=
  r.workspaces.map Prod.fst

/-- Message of the `KeyError` raised by `get_client` (lines 58-61). -/
def unknownWorkspaceMsg (wsName : String) (names : List String) : String :=
  "Workspace " ++ quoteStr ++ wsName ++ quoteStr ++ " not configured. " ++
    "Available: " ++ String.intercalate ", " names

/-- `get_client` (lines 45-68): raise `KeyError` for an unconfigured name,
otherwise return the cached client, creating and retaining it on first use. -/
def get_client (r : WorkspaceRegistry) (wsName : String) :
    Except String (LinearClient × WorkspaceRegistry) :=
  match dictLookup r.workspaces wsName with
  | none => .error (unknownWorkspaceMsg wsName (workspace_names r))
  | some apiKey =>
    match dictLookup r.clients wsName with
    | some c => .ok (c, r)
    | none =>
      let c : LinearClient := ⟨apiKey, r.api_url, r.timeout, r.next_id⟩
      .ok (c, { r with clients := dictInsert r.clients wsName c,
                       next_id := r.next_id + 1 })

/-- Message of `TeamNotFoundError` (lines 102-106). -/
def teamNotFoundMsg (teamKey : String) (names : List String) : String :=
  "Team " ++ quoteStr ++ teamKey ++ quoteStr ++ " not found in any workspace. " ++
    "Searched workspaces: " ++ String.intercalate ", " names ++ ". " ++
    "Use linear_list_workspaces to see available teams."

/-- The probe loop of `resolve_client_for_team` (lines 91-99): walk the
workspace names in configuration order; on each, get the client, call
`get_team_by_key`; a team short-circuits (recording the cache entry), a null
result or a `LinearClientError` continues with the next workspace. -/
def probeLoop (oracle : TeamOracle) (keyU : String) :
    List String → WorkspaceRegistry →
    Option LinearClient × WorkspaceRegistry × List Event
  | [], r => (none, r, [])
  | wsName :: rest, r =>
    match get_client r wsName with
    | .error _ => (none, r, [])
    | .ok (client, r1) =>
      match oracle wsName keyU with
      | .found _ =>
        (some client,
         { r1 with team_cache := dictInsert r1.team_cache keyU wsName },
         [Event.lookup wsName keyU])
      | .noTeam =>
        let (res, r2, evs) := probeLoop oracle keyU rest r1
        (res, r2, Event.lookup wsName keyU :: evs)
      | .clientError =>
        let (res, r2, evs) := probeLoop oracle keyU rest r1
        (res, r2, Event.lookup wsName keyU :: evs)

/-- `resolve_client_for_team` (lines 70-106): upper-case the key, consult the
cache (fast path, no remote call), otherwise probe every workspace and raise
`TeamNotFoundError` on exhaustion. -/
def resolve_client_for_team (oracle : TeamOracle) (r : WorkspaceRegistry)
    (teamKey : String) :
    Except String LinearClient × WorkspaceRegistry × List Event :=
  let keyU := (strUpper teamKey)
  match dictLookup r.team_cache keyU with
  | some wsName =>
    match get_client r wsName with
    | .ok (c, r1) => (.ok c, r1, [])
    | .error e => (.error e, r, [])
  | none =>
    match probeLoop oracle keyU (workspace_names r) r with
    | (some c, r1, evs) => (.ok c, r1, evs)
    | (none, r1, evs) =>
      (.error (teamNotFoundMsg teamKey (workspace_names r1)), r1, evs)

/-- is the character in `[A-Za-z]`? -/
def isAsciiLetter (c : Char) : Bool :=
  (Char.ofNat 97 ≤ c && c ≤ Char.ofNat 122) ||
    (Char.ofNat 65 ≤ c && c ≤ Char.ofNat 90)

/-- `\d+$` after the first digit, with Python `$` semantics: `$` also matches
just before a single trailing newline.  `reDigit` is the digit class the
host regex engine gives `\d` (every Unicode decimal digit); it is supplied
by the external `re` collaborator, so the parser is parametric in it. -/
def digitsEnd (reDigit : Char → Bool) : List Char → Bool
  | [] => true
  | [c] => reDigit c || c = Char.ofNat 10
  | c :: cs => reDigit c && digitsEnd reDigit cs

/-- `re.match(r"^([A-Za-z]+)-(\d+)$", identifier)` (line 124): `some` of
group 1 (the letter run) when the pattern matches, `none` otherwise.
`[A-Za-z]` is ASCII by definition; the engine's `\d` class is the
`reDigit` parameter. -/
def parseTeamKey (reDigit : Char → Bool) (s : String) : Option String :=
  let cs := s.toList
  let letters := cs.takeWhile isAsciiLetter
  match letters, cs.dropWhile isAsciiLetter with
  | [], _ => none
  | _, c :: d :: ds =>
    if c = Char.ofNat 45 && reDigit d && digitsEnd reDigit ds then
      some (String.mk letters)
    else none
  | _, _ => none

/-- Message of the `ValueError` raised by `resolve_client_for_issue`. -/
def invalidFormatMsg (identifier : String) : String :=
  "Invalid issue identifier format: " ++ quoteStr ++ identifier ++ quoteStr ++ ". " ++
    "Expected format: TEAM-123 (e.g., FAVRES-123)"

/-- `resolve_client_for_issue` (lines 108-131): parse the identifier, raise
`ValueError` on mismatch, otherwise delegate to `resolve_client_for_team` with
the extracted team key. -/
def resolve_client_for_issue (reDigit : Char → Bool) (oracle : TeamOracle)
    (r : WorkspaceRegistry) (identifier : String) :
    Except String LinearClient × WorkspaceRegistry × List Event :=
  match parseTeamKey reDigit identifier with
  | none => (.error (invalidFormatMsg identifier), r, [])
  | some teamKey => resolve_client_for_team oracle r teamKey

/-- One per-workspace entry of the result of `list_all_workspaces_with_teams`:
workspace name, optional error message, team dicts in order. -/
structure WorkspaceReport where
  workspace : String
  error : Option String
  teams : List (String × String × String)
deriving DecidableEq, Repr

/-- The inner `for team in teams` loop (lines 145-147): write the cache entry
and append `{key, name, id}` for each team, in order. -/
def ingestTeams (wsName : String) :
    List Team → List (String × String) →
    List (String × String × String) × List (String × String)
  | [], cache => ([], cache)
  | t :: ts, cache =>
    let cache1 := dictInsert cache (strUpper t.key) wsName
    let (entries, cache2) := ingestTeams wsName ts cache1
    ((t.key, t.name, t.id) :: entries, cache2)

/-- The outer loop of `list_all_workspaces_with_teams` (lines 140-161). -/
def listLoop (listT : ListOracle) :
    List String → WorkspaceRegistry →
    List WorkspaceReport × WorkspaceRegistry
  | [], r => ([], r)
  | wsName :: rest, r =>
    match get_client r wsName with
    | .error _ => ([], r)
    | .ok (_, r1) =>
      match listT wsName with
      | .ok teams =>
        let (entries, cache2) := ingestTeams wsName teams r1.team_cache
        let r2 := { r1 with team_cache := cache2 }
        let (restRep, r3) := listLoop listT rest r2
        ({ workspace := wsName, error := none, teams := entries } :: restRep, r3)
      | .error e =>
        let (restRep, r3) := listLoop listT rest r1
        ({ workspace := wsName, error := some e, teams := [] } :: restRep, r3)

/-- `list_all_workspaces_with_teams` (lines 133-162). -/
def list_all_workspaces_with_teams (listT : ListOracle)
    (r : WorkspaceRegistry) : List WorkspaceReport × WorkspaceRegistry :=
  listLoop listT (workspace_names r) r

/-- `close_all` (lines 164-168): close every created client, clear the map. -/
def close_all (r : WorkspaceRegistry) : WorkspaceRegistry × List Event :=
  ({ r with clients := [] }, r.clients.map fun p => Event.close p.2)


/-! ### Dictionary lemmas -/

theorem dictLookup_dictInsert {α : Type} (d : List (String × α)) (k k' : String)
    (v : α) :
    dictLookup (dictInsert d k v) k' =
      if k = k' then some v else dictLookup d k' := by
  induction d with
  | nil =>
    simp only [dictInsert, dictLookup]
  | cons p rest ih =>
    obtain ⟨a, b⟩ := p
    by_cases hak : a = k
    · subst hak
      simp only [dictInsert, if_pos rfl, dictLookup]
      by_cases hk : a = k'
      · subst hk
        simp
      · simp [hk]
    · simp only [dictInsert, if_neg hak, dictLookup]
      by_cases hk : a = k'
      · subst hk
        have : k ≠ a := fun h => hak h.symm
        simp [this]
      · simp [hk, ih]

theorem mem_map_fst_iff_dictLookup {α : Type} (d : List (String × α))
    (k : String) :
    k ∈ d.map Prod.fst ↔ (dictLookup d k).isSome := by
  induction d with
  | nil => simp [dictLookup]
  | cons p rest ih =>
    obtain ⟨a, b⟩ := p
    by_cases hak : a = k
    · subst hak
      simp [dictLookup]
    · have : k ≠ a := fun h => hak h.symm
      simp [dictLookup, hak, this, ih]

/-! ### `get_client` lemmas -/

/-- `get_client` succeeds exactly on configured names. -/
theorem get_client_ok_of_lookup (r : WorkspaceRegistry) (w : String)
    (key : String) (h : dictLookup r.workspaces w = some key) :
    ∃ c r1, get_client r w = .ok (c, r1) := by
  unfold get_client
  rw [h]
  cases hc : dictLookup r.clients w with
  | none => exact ⟨_, _, rfl⟩
  | some c => exact ⟨_, _, rfl⟩

/-- `get_client` on an unconfigured name raises `KeyError` with the
configured names enumerated. -/
theorem get_client_error_of_not_lookup (r : WorkspaceRegistry) (w : String)
    (h : dictLookup r.workspaces w = none) :
    get_client r w = .error (unknownWorkspaceMsg w (workspace_names r)) := by
  unfold get_client
  rw [h]

/-- `get_client` changes neither the configuration nor the team cache. -/
theorem get_client_frame (r : WorkspaceRegistry) (w : String)
    (c : LinearClient) (r1 : WorkspaceRegistry)
    (h : get_client r w = .ok (c, r1)) :
    r1.workspaces = r.workspaces ∧ r1.team_cache = r.team_cache ∧
      r1.api_url = r.api_url ∧ r1.timeout = r.timeout := by
  unfold get_client at h
  cases hw : dictLookup r.workspaces w with
  | none => rw [hw] at h; cases h
  | some key =>
    rw [hw] at h
    cases hc : dictLookup r.clients w with
    | some c0 =>
      rw [hc] at h
      cases h
      exact ⟨rfl, rfl, rfl, rfl⟩
    | none =>
      rw [hc] at h
      cases h
      exact ⟨rfl, rfl, rfl, rfl⟩

/-- The client returned by `get_client` is retained in the client map. -/
theorem get_client_mem_clients (r : WorkspaceRegistry) (w : String)
    (c : LinearClient) (r1 : WorkspaceRegistry)
    (h : get_client r w = .ok (c, r1)) :
    dictLookup r1.clients w = some c := by
  unfold get_client at h
  cases hw : dictLookup r.workspaces w with
  | none => rw [hw] at h; cases h
  | some key =>
    rw [hw] at h
    cases hc : dictLookup r.clients w with
    | some c0 =>
      rw [hc] at h
      cases h
      exact hc
    | none =>
      rw [hc] at h
      cases h
      simp [dictLookup_dictInsert]

/-- A second `get_client` call for the same name returns the identical
client instance and leaves the registry unchanged. -/
theorem get_client_idem (r : WorkspaceRegistry) (w : String)
    (c : LinearClient) (r1 : WorkspaceRegistry)
    (h : get_client r w = .ok (c, r1)) :
    get_client r1 w = .ok (c, r1) := by
  have hmem := get_client_mem_clients r w c r1 h
  have hfr := get_client_frame r w c r1 h
  unfold get_client at h ⊢
  cases hw : dictLookup r.workspaces w with
  | none => rw [hw] at h; cases h
  | some key =>
    rw [hfr.1, hw, hmem]

/-- `get_client` ignores the team cache: running it with a replaced cache
replaces the cache in its result and changes nothing else. -/
theorem get_client_cache_congr (r : WorkspaceRegistry) (w : String)
    (t : List (String × String)) :
    get_client { r with team_cache := t } w =
      match get_client r w with
      | .ok (c, r1) => .ok (c, { r1 with team_cache := t })
      | .error e => .error e := by
  unfold get_client
  cases hw : dictLookup r.workspaces w with
  | none => rfl
  | some key =>
    cases hc : dictLookup r.clients w with
    | some c0 => rfl
    | none => rfl

/-! ### Probe-loop lemmas -/

/-- Probing never changes the configuration or connection parameters. -/
theorem probeLoop_frame (oracle : TeamOracle) (keyU : String)
    (names : List String) : ∀ r : WorkspaceRegistry,
    ((probeLoop oracle keyU names r).2.1).workspaces = r.workspaces ∧
      ((probeLoop oracle keyU names r).2.1).api_url = r.api_url ∧
      ((probeLoop oracle keyU names r).2.1).timeout = r.timeout := by
  induction names with
  | nil => intro r; exact ⟨rfl, rfl, rfl⟩
  | cons n rest ih =>
    intro r
    unfold probeLoop
    cases hg : get_client r n with
    | error e => exact ⟨rfl, rfl, rfl⟩
    | ok p =>
      obtain ⟨c, r1⟩ := p
      have hfr := get_client_frame r n c r1 hg
      cases ho : oracle n keyU with
      | found t =>
        simp only []
        exact ⟨hfr.1, hfr.2.2.1, hfr.2.2.2⟩
      | noTeam =>
        have ih1 := ih r1
        cases hp : probeLoop oracle keyU rest r1 with
        | mk res q =>
          obtain ⟨r2, evs⟩ := q
          rw [hp] at ih1
          simp only [hp]
          exact ⟨ih1.1.trans hfr.1, ih1.2.1.trans hfr.2.2.1,
            ih1.2.2.trans hfr.2.2.2⟩
      | clientError =>
        have ih1 := ih r1
        cases hp : probeLoop oracle keyU rest r1 with
        | mk res q =>
          obtain ⟨r2, evs⟩ := q
          rw [hp] at ih1
          simp only [hp]
          exact ⟨ih1.1.trans hfr.1, ih1.2.1.trans hfr.2.2.1,
            ih1.2.2.trans hfr.2.2.2⟩

/-- Any cache entry present after probing was either present before, or maps
the probed key to one of the probed workspace names. -/
theorem probeLoop_cache_sub (oracle : TeamOracle) (keyU : String)
    (names : List String) : ∀ (r : WorkspaceRegistry) (k w : String),
    dictLookup ((probeLoop oracle keyU names r).2.1).team_cache k = some w →
    dictLookup r.team_cache k = some w ∨ (k = keyU ∧ w ∈ names) := by
  induction names with
  | nil => intro r k w h; exact Or.inl h
  | cons n rest ih =>
    intro r k w h
    unfold probeLoop at h
    cases hg : get_client r n with
    | error e =>
      rw [hg] at h
      exact Or.inl h
    | ok p =>
      obtain ⟨c, r1⟩ := p
      rw [hg] at h
      have hfr := get_client_frame r n c r1 hg
      cases ho : oracle n keyU with
      | found t =>
        rw [ho] at h
        simp only [dictLookup_dictInsert] at h
        by_cases hk : keyU = k
        · subst hk
          rw [if_pos rfl] at h
          cases h
          exact Or.inr ⟨rfl, List.mem_cons_self n rest⟩
        · rw [if_neg hk] at h
          rw [hfr.2.1] at h
          exact Or.inl h
      | noTeam =>
        cases hp : probeLoop oracle keyU rest r1 with
        | mk res q =>
          obtain ⟨r2, evs⟩ := q
          simp only [ho, hp] at h
          have hih := ih r1 k w
          rw [hp] at hih
          have := hih h
          rw [hfr.2.1] at this
          rcases this with h1 | h2
          · exact Or.inl h1
          · exact Or.inr ⟨h2.1, List.mem_cons_of_mem n h2.2⟩
      | clientError =>
        cases hp : probeLoop oracle keyU rest r1 with
        | mk res q =>
          obtain ⟨r2, evs⟩ := q
          simp only [ho, hp] at h
          have hih := ih r1 k w
          rw [hp] at hih
          have := hih h
          rw [hfr.2.1] at this
          rcases this with h1 | h2
          · exact Or.inl h1
          · exact Or.inr ⟨h2.1, List.mem_cons_of_mem n h2.2⟩

/-- Exhaustive probe without a match: result `none`, one remote lookup per
configured workspace in order, team cache untouched. -/
theorem probeLoop_not_found (oracle : TeamOracle) (keyU : String)
    (names : List String) : ∀ r : WorkspaceRegistry,
    (∀ n ∈ names, (oracle n keyU).isFound = false) →
    (∀ n ∈ names, (dictLookup r.workspaces n).isSome) →
    (probeLoop oracle keyU names r).1 = none ∧
      (probeLoop oracle keyU names r).2.2 =
        names.map (fun n => Event.lookup n keyU) ∧
      ((probeLoop oracle keyU names r).2.1).team_cache = r.team_cache := by
  induction names with
  | nil => intro r _ _; exact ⟨rfl, rfl, rfl⟩
  | cons n rest ih =>
    intro r hall hmem
    obtain ⟨key, hkey⟩ :=
      Option.isSome_iff_exists.mp (hmem n (List.mem_cons_self n rest))
    obtain ⟨c, r1, hg⟩ := get_client_ok_of_lookup r n key hkey
    have hfr := get_client_frame r n c r1 hg
    have hall1 : ∀ m ∈ rest, (oracle m keyU).isFound = false := fun m hm =>
      hall m (List.mem_cons_of_mem n hm)
    have hmem1 : ∀ m ∈ rest, (dictLookup r1.workspaces m).isSome := by
      intro m hm
      rw [hfr.1]
      exact hmem m (List.mem_cons_of_mem n hm)
    have ihr := ih r1 hall1 hmem1
    unfold probeLoop
    cases ho : oracle n keyU with
    | found t =>
      have hn := hall n (List.mem_cons_self n rest)
      rw [ho] at hn
      simp [LookupResult.isFound] at hn
    | noTeam =>
      cases hp : probeLoop oracle keyU rest r1 with
      | mk res q =>
        obtain ⟨r2, evs⟩ := q
        rw [hp] at ihr
        obtain ⟨ih1, ih2, ih3⟩ := ihr
        simp only [hg, ho, hp]
        refine ⟨ih1, ?_, ih3.trans hfr.2.1⟩
        rw [List.map_cons]
        exact congrArg (List.cons (Event.lookup n keyU)) ih2
    | clientError =>
      cases hp : probeLoop oracle keyU rest r1 with
      | mk res q =>
        obtain ⟨r2, evs⟩ := q
        rw [hp] at ihr
        obtain ⟨ih1, ih2, ih3⟩ := ihr
        simp only [hg, ho, hp]
        refine ⟨ih1, ?_, ih3.trans hfr.2.1⟩
        rw [List.map_cons]
        exact congrArg (List.cons (Event.lookup n keyU)) ih2

/-- Probe where every workspace before `w` misses (null result or swallowed
error) and `w` matches: the probe returns `w`'s client, performs exactly one
lookup per probed workspace (none beyond `w`), and caches `keyU ↦ w`. -/
theorem probeLoop_found_first (oracle : TeamOracle) (keyU : String)
    (pre : List String) :
    ∀ (r : WorkspaceRegistry) (w : String) (post : List String),
    (∀ n ∈ pre, (oracle n keyU).isFound = false) →
    (oracle w keyU).isFound = true →
    (∀ n ∈ pre, (dictLookup r.workspaces n).isSome) →
    (dictLookup r.workspaces w).isSome →
    ∃ c r1,
      probeLoop oracle keyU (pre ++ w :: post) r =
        (some c, r1,
         pre.map (fun n => Event.lookup n keyU) ++ [Event.lookup w keyU]) ∧
      dictLookup r1.clients w = some c ∧
      dictLookup r1.team_cache keyU = some w ∧
      r1.workspaces = r.workspaces := by
  induction pre with
  | nil =>
    intro r w post _ hw _ hwmem
    obtain ⟨key, hkey⟩ := Option.isSome_iff_exists.mp hwmem
    obtain ⟨c, r1, hg⟩ := get_client_ok_of_lookup r w key hkey
    have hfr := get_client_frame r w c r1 hg
    cases ho : oracle w keyU with
    | found t =>
      refine ⟨c, { r1 with team_cache := dictInsert r1.team_cache keyU w },
        ?_, ?_, ?_, hfr.1⟩
      · rw [List.nil_append]
        unfold probeLoop
        simp only [hg, ho, List.map_nil, List.nil_append]
      · exact get_client_mem_clients r w c r1 hg
      · simp [dictLookup_dictInsert]
    | noTeam => rw [ho] at hw; simp [LookupResult.isFound] at hw
    | clientError => rw [ho] at hw; simp [LookupResult.isFound] at hw
  | cons n pre' ih =>
    intro r w post hpre hw hmem hwmem
    obtain ⟨key, hkey⟩ :=
      Option.isSome_iff_exists.mp (hmem n (List.mem_cons_self n pre'))
    obtain ⟨c0, r1, hg⟩ := get_client_ok_of_lookup r n key hkey
    have hfr := get_client_frame r n c0 r1 hg
    have hpre1 : ∀ m ∈ pre', (oracle m keyU).isFound = false := fun m hm =>
      hpre m (List.mem_cons_of_mem n hm)
    have hmem1 : ∀ m ∈ pre', (dictLookup r1.workspaces m).isSome := by
      intro m hm
      rw [hfr.1]
      exact hmem m (List.mem_cons_of_mem n hm)
    have hwmem1 : (dictLookup r1.workspaces w).isSome := by
      rw [hfr.1]; exact hwmem
    obtain ⟨c, r2, hp, hcl, hca, hws⟩ := ih r1 w post hpre1 hw hmem1 hwmem1
    refine ⟨c, r2, ?_, hcl, hca, hws.trans hfr.1⟩
    cases ho : oracle n keyU with
    | found t =>
      have hn := hpre n (List.mem_cons_self n pre')
      rw [ho] at hn
      simp [LookupResult.isFound] at hn
    | noTeam =>
      rw [List.cons_append]
      unfold probeLoop
      simp only [hg, ho, hp, List.map_cons, List.cons_append]
    | clientError =>
      rw [List.cons_append]
      unfold probeLoop
      simp only [hg, ho, hp, List.map_cons, List.cons_append]

/-- Probing never reads the team cache: starting from a replaced cache gives
the same result, the same remote calls, and the same client map. -/
theorem probeLoop_cache_congr (oracle : TeamOracle) (keyU : String)
    (names : List String) :
    ∀ (r : WorkspaceRegistry) (t : List (String × String)),
    (probeLoop oracle keyU names { r with team_cache := t }).1 =
      (probeLoop oracle keyU names r).1 ∧
    (probeLoop oracle keyU names { r with team_cache := t }).2.2 =
      (probeLoop oracle keyU names r).2.2 ∧
    ((probeLoop oracle keyU names { r with team_cache := t }).2.1).clients =
      ((probeLoop oracle keyU names r).2.1).clients := by
  induction names with
  | nil => intro r t; exact ⟨rfl, rfl, rfl⟩
  | cons n rest ih =>
    intro r t
    have hgc := get_client_cache_congr r n t
    unfold probeLoop
    cases hg : get_client r n with
    | error e =>
      rw [hg] at hgc
      simp only [hg, hgc]
      exact ⟨trivial, trivial, trivial⟩
    | ok p =>
      obtain ⟨c, r1⟩ := p
      rw [hg] at hgc
      cases ho : oracle n keyU with
      | found u =>
        simp only [hg, hgc, ho]
        exact ⟨trivial, trivial, trivial⟩
      | noTeam =>
        have ihr := ih r1 t
        cases hp : probeLoop oracle keyU rest r1 with
        | mk res q =>
          obtain ⟨r2, evs⟩ := q
          cases hq : probeLoop oracle keyU rest { r1 with team_cache := t } with
          | mk res' q' =>
            obtain ⟨r2', evs'⟩ := q'
            rw [hp, hq] at ihr
            simp only [hg, hgc, ho, hp, hq]
            exact ⟨ihr.1, congrArg (List.cons (Event.lookup n keyU)) ihr.2.1,
              ihr.2.2⟩
      | clientError =>
        have ihr := ih r1 t
        cases hp : probeLoop oracle keyU rest r1 with
        | mk res q =>
          obtain ⟨r2, evs⟩ := q
          cases hq : probeLoop oracle keyU rest { r1 with team_cache := t } with
          | mk res' q' =>
            obtain ⟨r2', evs'⟩ := q'
            rw [hp, hq] at ihr
            simp only [hg, hgc, ho, hp, hq]
            exact ⟨ihr.1, congrArg (List.cons (Event.lookup n keyU)) ihr.2.1,
              ihr.2.2⟩

/-- A successful probe returns a client that is retained in the final client
map under one of the probed workspace names. -/
theorem probeLoop_some_client (oracle : TeamOracle) (keyU : String)
    (names : List String) : ∀ (r : WorkspaceRegistry) (c : LinearClient),
    (probeLoop oracle keyU names r).1 = some c →
    ∃ w, w ∈ names ∧
      dictLookup ((probeLoop oracle keyU names r).2.1).clients w = some c := by
  induction names with
  | nil => intro r c h; cases h
  | cons n rest ih =>
    intro r c h
    unfold probeLoop at h ⊢
    cases hg : get_client r n with
    | error e =>
      rw [hg] at h
      cases h
    | ok p =>
      obtain ⟨c0, r1⟩ := p
      rw [hg] at h
      cases ho : oracle n keyU with
      | found t =>
        rw [ho] at h
        simp only [Option.some.injEq] at h
        refine ⟨n, List.mem_cons_self n rest, ?_⟩
        simp only [hg, ho]
        rw [← h]
        exact get_client_mem_clients r n c0 r1 hg
      | noTeam =>
        cases hp : probeLoop oracle keyU rest r1 with
        | mk res q =>
          obtain ⟨r2, evs⟩ := q
          simp only [ho, hp] at h
          have hih := ih r1 c
          rw [hp] at hih
          obtain ⟨w, hw, hcl⟩ := hih h
          refine ⟨w, List.mem_cons_of_mem n hw, ?_⟩
          simp only [hg, ho, hp]
          exact hcl
      | clientError =>
        cases hp : probeLoop oracle keyU rest r1 with
        | mk res q =>
          obtain ⟨r2, evs⟩ := q
          simp only [ho, hp] at h
          have hih := ih r1 c
          rw [hp] at hih
          obtain ⟨w, hw, hcl⟩ := hih h
          refine ⟨w, List.mem_cons_of_mem n hw, ?_⟩
          simp only [hg, ho, hp]
          exact hcl

/-- Decompose a list at its first element satisfying `p`. -/
theorem exists_first_true (p : String → Bool) (l : List String)
    (h : ∃ x ∈ l, p x = true) :
    ∃ pre w post, l = pre ++ w :: post ∧ p w = true ∧
      ∀ y ∈ pre, p y = false := by
  induction l with
  | nil =>
    obtain ⟨x, hx, _⟩ := h
    cases hx
  | cons a l ih =>
    cases hpa : p a with
    | true => exact ⟨[], a, l, rfl, hpa, by intro y hy; cases hy⟩
    | false =>
      have hl : ∃ x ∈ l, p x = true := by
        obtain ⟨x, hx, hpx⟩ := h
        rcases List.mem_cons.mp hx with h1 | h2
        · subst h1; rw [hpa] at hpx; cases hpx
        · exact ⟨x, h2, hpx⟩
      obtain ⟨pre, w, post, hdec, hw, hpre⟩ := ih hl
      refine ⟨a :: pre, w, post, by rw [hdec, List.cons_append], hw, ?_⟩
      intro y hy
      rcases List.mem_cons.mp hy with h1 | h2
      · subst h1; exact hpa
      · exact hpre y h2

/-! ### Resolution-level core lemmas (shared by several claim theorems) -/

/-- Equation form of `probeLoop_not_found`. -/
theorem probeLoop_not_found_eq (oracle : TeamOracle) (keyU : String)
    (names : List String) (r : WorkspaceRegistry)
    (hall : ∀ n ∈ names, (oracle n keyU).isFound = false)
    (hmem : ∀ n ∈ names, (dictLookup r.workspaces n).isSome) :
    ∃ r1, probeLoop oracle keyU names r =
        (none, r1, names.map (fun n => Event.lookup n keyU)) ∧
      r1.team_cache = r.team_cache ∧ r1.workspaces = r.workspaces := by
  obtain ⟨h1, h2, h3⟩ := probeLoop_not_found oracle keyU names r hall hmem
  have h4 : ((probeLoop oracle keyU names r).2.1).workspaces = r.workspaces :=
    (probeLoop_frame oracle keyU names r).1
  refine ⟨(probeLoop oracle keyU names r).2.1, ?_, h3, h4⟩
  rw [← h1, ← h2]

/-- Cache miss with the first match at `w`: the probe path of
`resolve_client_for_team`, with its exact event trace and cache update. -/
theorem resolve_team_found_core (oracle : TeamOracle) (r : WorkspaceRegistry)
    (k w : String) (pre post : List String)
    (hmiss : dictLookup r.team_cache (strUpper k) = none)
    (hsplit : workspace_names r = pre ++ w :: post)
    (hpre : ∀ n ∈ pre, (oracle n (strUpper k)).isFound = false)
    (hw : (oracle w (strUpper k)).isFound = true) :
    ∃ c r1,
      resolve_client_for_team oracle r k =
        (.ok c, r1,
         pre.map (fun n => Event.lookup n (strUpper k)) ++
           [Event.lookup w (strUpper k)]) ∧
      dictLookup r1.clients w = some c ∧
      dictLookup r1.team_cache (strUpper k) = some w := by
  have hmem : ∀ n ∈ pre, (dictLookup r.workspaces n).isSome := by
    intro n hn
    rw [← mem_map_fst_iff_dictLookup]
    show n ∈ workspace_names r
    rw [hsplit]
    exact List.mem_append_left _ hn
  have hwmem : (dictLookup r.workspaces w).isSome := by
    rw [← mem_map_fst_iff_dictLookup]
    show w ∈ workspace_names r
    rw [hsplit]
    exact List.mem_append_right _ (List.mem_cons_self _ _)
  obtain ⟨c, r1, hp, hcl, hca, hws⟩ :=
    probeLoop_found_first oracle (strUpper k) pre r w post hpre hw hmem hwmem
  refine ⟨c, r1, ?_, hcl, hca⟩
  unfold resolve_client_for_team
  simp only [hmiss, hsplit, hp]

/-- Cache miss with no workspace matching: `TeamNotFoundError` naming every
searched workspace, after one lookup per workspace in order. -/
theorem resolve_team_not_found_core (oracle : TeamOracle)
    (r : WorkspaceRegistry) (k : String)
    (hmiss : dictLookup r.team_cache (strUpper k) = none)
    (hall : ∀ n ∈ workspace_names r, (oracle n (strUpper k)).isFound = false) :
    ∃ r1,
      resolve_client_for_team oracle r k =
        (.error (teamNotFoundMsg k (workspace_names r)), r1,
         (workspace_names r).map (fun n => Event.lookup n (strUpper k))) ∧
      r1.team_cache = r.team_cache := by
  have hmem : ∀ n ∈ workspace_names r, (dictLookup r.workspaces n).isSome := by
    intro n hn
    rw [← mem_map_fst_iff_dictLookup]
    exact hn
  obtain ⟨r1, hp, hc, hws⟩ :=
    probeLoop_not_found_eq oracle (strUpper k) (workspace_names r) r hall hmem
  refine ⟨r1, ?_, hc⟩
  unfold resolve_client_for_team
  simp only [hmiss, hp]
  have hnames : workspace_names r1 = workspace_names r := by
    unfold workspace_names
    rw [hws]
  rw [hnames]

/-! ### Claim theorems: probe order and cache fast path -/

/-- C1: on a cache miss, `resolve_client_for_team` probes the configured
workspaces in configuration order; at the first workspace whose lookup returns
a team it records `cache[upper k] = that workspace` and returns that
workspace's client, with no lookup on any later workspace (the event trace
stops at `w`). -/
theorem claim_resolve_team_probe_order (oracle : TeamOracle)
    (r : WorkspaceRegistry) (k w : String) (pre post : List String)
    (hmiss : dictLookup r.team_cache (strUpper k) = none)
    (hsplit : workspace_names r = pre ++ w :: post)
    (hpre : ∀ n ∈ pre, (oracle n (strUpper k)).isFound = false)
    (hw : (oracle w (strUpper k)).isFound = true) :
    ∃ c r1,
      resolve_client_for_team oracle r k =
        (.ok c, r1,
         pre.map (fun n => Event.lookup n (strUpper k)) ++
           [Event.lookup w (strUpper k)]) ∧
      dictLookup r1.clients w = some c ∧
      dictLookup r1.team_cache (strUpper k) = some w :=
  resolve_team_found_core oracle r k w pre post hmiss hsplit hpre hw

/-- Shared concrete data for witnesses: the two-workspace registry of the
repository's test fixtures. -/
def regW : WorkspaceRegistry :=
  mkRegistry [("ios", "lin_api_ios"), ("backend", "lin_api_backend")]
    "https://api.linear.app/graphql" 30

/-- A sample team owned by the `backend` workspace. -/
def sampleTeam : Team := ⟨"team-2", "Backend", "BACK"⟩

/-- Oracle where only `backend` owns team key `BACK`. -/
def oracleBack : TeamOracle := fun ws key =>
  if ws = "backend" && key = "BACK" then .found sampleTeam else .noTeam

theorem claim_resolve_team_probe_order_witness :
    ∃ c r1,
      resolve_client_for_team oracleBack regW "back" =
        (.ok c, r1,
         (["ios"].map (fun n => Event.lookup n (strUpper "back"))) ++
           [Event.lookup "backend" (strUpper "back")]) ∧
      dictLookup r1.clients "backend" = some c ∧
      dictLookup r1.team_cache (strUpper "back") = some "backend" :=
  claim_resolve_team_probe_order oracleBack regW "back" "backend" ["ios"] []
    rfl rfl
    (by intro n hn; rw [List.mem_singleton] at hn; subst hn; rfl) rfl

/-- C2: on a cache hit (upper-cased key present), `resolve_client_for_team`
performs zero remote lookups and returns exactly what `get_client` of the
cached workspace name yields (its client, or its propagated error). -/
theorem claim_resolve_team_cache_hit (oracle : TeamOracle)
    (r : WorkspaceRegistry) (k w : String)
    (hhit : dictLookup r.team_cache (strUpper k) = some w) :
    (resolve_client_for_team oracle r k).2.2 = [] ∧
    (∀ c r1, get_client r w = .ok (c, r1) →
      resolve_client_for_team oracle r k = (.ok c, r1, [])) ∧
    (∀ e, get_client r w = .error e →
      resolve_client_for_team oracle r k = (.error e, r, [])) := by
  refine ⟨?_, ?_, ?_⟩
  · unfold resolve_client_for_team
    simp only [hhit]
    cases hg : get_client r w with
    | ok p =>
      obtain ⟨c, r1⟩ := p
      simp only []
    | error e =>
      simp only []
  · intro c r1 hg
    unfold resolve_client_for_team
    simp only [hhit, hg]
  · intro e hg
    unfold resolve_client_for_team
    simp only [hhit, hg]

/-- `regW` with the team cache already holding `BACK ↦ backend`. -/
def regWcached : WorkspaceRegistry :=
  { regW with team_cache := [("BACK", "backend")] }

theorem claim_resolve_team_cache_hit_witness :
    dictLookup regWcached.team_cache (strUpper "back") = some "backend" ∧
    (resolve_client_for_team oracleBack regWcached "back").2.2 = [] :=
  ⟨rfl,
   (claim_resolve_team_cache_hit oracleBack regWcached "back" "backend"
     rfl).1⟩

/-! ### Claim theorems: error swallowing and exhaustion -/

/-- C4: a `LinearClientError` raised by one workspace's lookup is swallowed
and probing continues (second conjunct: a match after error-raising
workspaces still succeeds, with the errored workspaces probed); if every
workspace yields no team or an error, the call fails with `TeamNotFoundError`
enumerating the searched workspaces and suggesting `linear_list_workspaces`
(the text of `teamNotFoundMsg`), after probing every workspace. -/
theorem claim_resolve_team_error_swallowed (oracle : TeamOracle)
    (r : WorkspaceRegistry) (k : String)
    (hmiss : dictLookup r.team_cache (strUpper k) = none) :
    ((∀ n ∈ workspace_names r, (oracle n (strUpper k)).isFound = false) →
      ∃ r1, resolve_client_for_team oracle r k =
        (.error (teamNotFoundMsg k (workspace_names r)), r1,
         (workspace_names r).map (fun n => Event.lookup n (strUpper k)))) ∧
    (∀ pre w post, workspace_names r = pre ++ w :: post →
      (∀ n ∈ pre, oracle n (strUpper k) = .clientError) →
      (oracle w (strUpper k)).isFound = true →
      ∃ c r1, resolve_client_for_team oracle r k =
        (.ok c, r1,
         pre.map (fun n => Event.lookup n (strUpper k)) ++
           [Event.lookup w (strUpper k)])) := by
  constructor
  · intro hall
    obtain ⟨r1, heq, _⟩ := resolve_team_not_found_core oracle r k hmiss hall
    exact ⟨r1, heq⟩
  · intro pre w post hsplit herr hw
    have hpre : ∀ n ∈ pre, (oracle n (strUpper k)).isFound = false := by
      intro n hn
      rw [herr n hn]
      rfl
    obtain ⟨c, r1, heq, _, _⟩ :=
      resolve_team_found_core oracle r k w pre post hmiss hsplit hpre hw
    exact ⟨c, r1, heq⟩

/-- Oracle where `ios` raises a client error and `backend` owns `BACK`;
no workspace owns any other key. -/
def oracleErr : TeamOracle := fun ws key =>
  if ws = "ios" then .clientError
  else if ws = "backend" && key = "BACK" then .found sampleTeam
  else .noTeam

theorem claim_resolve_team_error_swallowed_witness :
    (∃ r1, resolve_client_for_team oracleErr regW "UNKNOWN" =
      (.error (teamNotFoundMsg "UNKNOWN" (workspace_names regW)), r1,
       (workspace_names regW).map
         (fun n => Event.lookup n (strUpper "UNKNOWN")))) ∧
    (∃ c r1, resolve_client_for_team oracleErr regW "BACK" =
      (.ok c, r1,
       (["ios"].map (fun n => Event.lookup n (strUpper "BACK"))) ++
         [Event.lookup "backend" (strUpper "BACK")])) :=
  ⟨(claim_resolve_team_error_swallowed oracleErr regW "UNKNOWN" rfl).1
    (by intro n hn
        have hwn : workspace_names regW = ["ios", "backend"] := rfl
        rw [hwn] at hn
        rcases List.mem_cons.mp hn with h1 | h2
        · subst h1; rfl
        · rw [List.mem_singleton] at h2; subst h2; rfl),
   (claim_resolve_team_error_swallowed oracleErr regW "BACK" rfl).2
    ["ios"] "backend" [] rfl
    (by intro n hn; rw [List.mem_singleton] at hn; subst hn; rfl) rfl⟩

/-! ### Claim theorems: client lifecycle -/

/-- C7: for a configured workspace the second `get_client` call returns the
identical client instance with no state change (no new client constructed);
for an unconfigured name it raises `KeyError` whose message enumerates the
configured workspace names (`unknownWorkspaceMsg` interpolates exactly
`workspace_names`), returning no client and no new state. -/
theorem claim_get_client_stable (r : WorkspaceRegistry) (w : String) :
    (∀ key, dictLookup r.workspaces w = some key →
      ∃ c r1, get_client r w = .ok (c, r1) ∧ get_client r1 w = .ok (c, r1)) ∧
    (dictLookup r.workspaces w = none →
      get_client r w = .error (unknownWorkspaceMsg w (workspace_names r))) := by
  constructor
  · intro key hkey
    obtain ⟨c, r1, hg⟩ := get_client_ok_of_lookup r w key hkey
    exact ⟨c, r1, hg, get_client_idem r w c r1 hg⟩
  · exact get_client_error_of_not_lookup r w

theorem claim_get_client_stable_witness :
    (∃ c r1, get_client regW "ios" = .ok (c, r1) ∧
      get_client r1 "ios" = .ok (c, r1)) ∧
    get_client regW "unknown" =
      .error (unknownWorkspaceMsg "unknown" (workspace_names regW)) :=
  ⟨(claim_get_client_stable regW "ios").1 "lin_api_ios" rfl,
   (claim_get_client_stable regW "unknown").2 rfl⟩

/-- C9: `close_all` emits exactly one close per created client (in creation
order), leaves the client map empty, is a no-op when no client exists, and
leaves the registry usable: any configured workspace gets a client lazily
recreated and retained on next access. -/
theorem claim_close_all_closes_each_once (r : WorkspaceRegistry) :
    (close_all r).2 = r.clients.map (fun p => Event.close p.2) ∧
    ((close_all r).1).clients = [] ∧
    (r.clients = [] → close_all r = (r, [])) ∧
    (∀ w key, dictLookup r.workspaces w = some key →
      ∃ c r1, get_client (close_all r).1 w = .ok (c, r1) ∧
        dictLookup r1.clients w = some c) := by
  refine ⟨rfl, rfl, ?_, ?_⟩
  · intro h
    obtain ⟨ws, url, tm, cl, tc, nid⟩ := r
    simp only [] at h
    subst h
    rfl
  · intro w key hkey
    have hkey1 : dictLookup ((close_all r).1).workspaces w = some key := hkey
    obtain ⟨c, r1, hg⟩ := get_client_ok_of_lookup (close_all r).1 w key hkey1
    exact ⟨c, r1, hg, get_client_mem_clients (close_all r).1 w c r1 hg⟩

theorem claim_close_all_closes_each_once_witness :
    (close_all regW).2 = regW.clients.map (fun p => Event.close p.2) ∧
    (regW.clients = [] → close_all regW = (regW, [])) ∧
    (∃ c r1, get_client (close_all regW).1 "ios" = .ok (c, r1) ∧
      dictLookup r1.clients "ios" = some c) := by
  have h := claim_close_all_closes_each_once regW
  exact ⟨h.1, h.2.2.1, h.2.2.2 "ios" "lin_api_ios" rfl⟩

/-- C10: `close_all` touches only the client map — configuration, endpoint
URL, timeout and the team cache are unchanged — so a key cached before
`close_all` still resolves through the cache fast path afterwards (no remote
lookup event), while the returned client is newly constructed (distinct from
every client that existed before, given that previously created clients
carry earlier creation ids). -/
theorem claim_close_all_frame (oracle : TeamOracle) (r : WorkspaceRegistry)
    (k w key : String) :
    ((close_all r).1).workspaces = r.workspaces ∧
    ((close_all r).1).api_url = r.api_url ∧
    ((close_all r).1).timeout = r.timeout ∧
    ((close_all r).1).team_cache = r.team_cache ∧
    (dictLookup r.team_cache (strUpper k) = some w →
     dictLookup r.workspaces w = some key →
     (∀ c0 ∈ r.clients.map Prod.snd, c0.inst_id < r.next_id) →
     ∃ c r1,
       resolve_client_for_team oracle (close_all r).1 k = (.ok c, r1, []) ∧
       c ∉ r.clients.map Prod.snd) := by
  refine ⟨rfl, rfl, rfl, rfl, ?_⟩
  intro hhit hkey hlt
  have hhit1 : dictLookup ((close_all r).1).team_cache (strUpper k) =
      some w := hhit
  have hkey1 : dictLookup ((close_all r).1).workspaces w = some key := hkey
  have hcl1 : dictLookup ((close_all r).1).clients w = (none : Option LinearClient) := rfl
  have hg : get_client (close_all r).1 w =
      .ok (⟨key, r.api_url, r.timeout, r.next_id⟩,
        { (close_all r).1 with
            clients := dictInsert ((close_all r).1).clients w
              ⟨key, r.api_url, r.timeout, r.next_id⟩,
            next_id := r.next_id + 1 }) := by
    unfold get_client
    simp only [hkey1, hcl1]
    rfl
  refine ⟨⟨key, r.api_url, r.timeout, r.next_id⟩,
    { (close_all r).1 with
        clients := dictInsert ((close_all r).1).clients w
          ⟨key, r.api_url, r.timeout, r.next_id⟩,
        next_id := r.next_id + 1 }, ?_, ?_⟩
  · unfold resolve_client_for_team
    simp only [hhit1, hg]
  · intro hmem
    exact Nat.lt_irrefl r.next_id (hlt _ hmem)

theorem claim_close_all_frame_witness :
    ((close_all regWcached).1).team_cache = regWcached.team_cache ∧
    dictLookup regWcached.team_cache (strUpper "back") = some "backend" ∧
    (∃ c r1,
      resolve_client_for_team oracleBack (close_all regWcached).1 "back" =
        (.ok c, r1, []) ∧
      c ∉ regWcached.clients.map Prod.snd) := by
  have h := claim_close_all_frame oracleBack regWcached "back" "backend"
    "lin_api_backend"
  exact ⟨h.2.2.2.1, rfl, h.2.2.2.2 rfl rfl
    (by intro c0 hc; exact absurd hc (List.not_mem_nil c0))⟩

/-! ### Bulk listing lemmas -/

/-- The inner team loop is a map (report entries) plus a fold of cache
writes, in team order. -/
theorem ingestTeams_spec (wsName : String) (ts : List Team) :
    ∀ cache : List (String × String),
    ingestTeams wsName ts cache =
      (ts.map (fun t => (t.key, t.name, t.id)),
       ts.foldl (fun c t => dictInsert c (strUpper t.key) wsName) cache) := by
  induction ts with
  | nil => intro cache; rfl
  | cons t ts ih =>
    intro cache
    unfold ingestTeams
    simp only [ih, List.map_cons, List.foldl_cons]

/-- Cache writes of the inner team loop only add the listing workspace. -/
theorem ingestTeams_cache_sub (wsName : String) (ts : List Team)
    (cache : List (String × String)) (k w : String)
    (h : dictLookup (ingestTeams wsName ts cache).2 k = some w) :
    dictLookup cache k = some w ∨ w = wsName := by
  rw [ingestTeams_spec] at h
  induction ts generalizing cache with
  | nil => exact Or.inl h
  | cons t ts ih =>
    rw [List.foldl_cons] at h
    rcases ih (dictInsert cache (strUpper t.key) wsName) h with h1 | h2
    · rw [dictLookup_dictInsert] at h1
      by_cases hk : strUpper t.key = k
      · rw [if_pos hk] at h1
        cases h1
        exact Or.inr rfl
      · rw [if_neg hk] at h1
        exact Or.inl h1
    · exact Or.inr h2

/-- The listing loop never changes the configured workspaces. -/
theorem listLoop_workspaces (listT : ListOracle) (names : List String) :
    ∀ r : WorkspaceRegistry,
    ((listLoop listT names r).2).workspaces = r.workspaces := by
  induction names with
  | nil => intro r; rfl
  | cons n rest ih =>
    intro r
    unfold listLoop
    cases hg : get_client r n with
    | error e => rfl
    | ok p =>
      obtain ⟨c, r1⟩ := p
      have hfr := get_client_frame r n c r1 hg
      cases hlt : listT n with
      | ok teams =>
        cases hing : ingestTeams n teams r1.team_cache with
        | mk entries cache2 =>
          cases hp : listLoop listT rest { r1 with team_cache := cache2 } with
          | mk reports r3 =>
            simp only [hg, hlt, hing, hp]
            have := ih { r1 with team_cache := cache2 }
            rw [hp] at this
            exact this.trans hfr.1
      | error e =>
        cases hp : listLoop listT rest r1 with
        | mk reports r3 =>
          simp only [hg, hlt, hp]
          have := ih r1
          rw [hp] at this
          exact this.trans hfr.1

/-- Any cache entry present after the listing loop was present before or maps
to one of the listed workspace names. -/
theorem listLoop_cache_sub (listT : ListOracle) (names : List String) :
    ∀ (r : WorkspaceRegistry) (k w : String),
    dictLookup ((listLoop listT names r).2).team_cache k = some w →
    dictLookup r.team_cache k = some w ∨ w ∈ names := by
  induction names with
  | nil => intro r k w h; exact Or.inl h
  | cons n rest ih =>
    intro r k w h
    unfold listLoop at h
    cases hg : get_client r n with
    | error e =>
      rw [hg] at h
      exact Or.inl h
    | ok p =>
      obtain ⟨c, r1⟩ := p
      rw [hg] at h
      have hfr := get_client_frame r n c r1 hg
      cases hlt : listT n with
      | ok teams =>
        cases hing : ingestTeams n teams r1.team_cache with
        | mk entries cache2 =>
          cases hp : listLoop listT rest { r1 with team_cache := cache2 } with
          | mk reports r3 =>
            simp only [hlt, hing, hp] at h
            have hih := ih { r1 with team_cache := cache2 } k w
            rw [hp] at hih
            rcases hih h with h1 | h2
            · have hsub := ingestTeams_cache_sub n teams r1.team_cache k w
              rw [hing] at hsub
              rcases hsub h1 with h3 | h4
              · rw [hfr.2.1] at h3
                exact Or.inl h3
              · exact Or.inr (h4 ▸ List.mem_cons_self n rest)
            · exact Or.inr (List.mem_cons_of_mem n h2)
      | error e =>
        cases hp : listLoop listT rest r1 with
        | mk reports r3 =>
          simp only [hlt, hp] at h
          have hih := ih r1 k w
          rw [hp] at hih
          rcases hih h with h1 | h2
          · rw [hfr.2.1] at h1
            exact Or.inl h1
          · exact Or.inr (List.mem_cons_of_mem n h2)

/-- Full characterization of the listing loop: one report per listed name in
order (success: team triples; failure: error message and empty team list),
and the team cache extended by the per-team writes of each successful
workspace in order. -/
theorem listLoop_spec (listT : ListOracle) (names : List String) :
    ∀ r : WorkspaceRegistry,
    (∀ n ∈ names, (dictLookup r.workspaces n).isSome) →
    (listLoop listT names r).1 =
      names.map (fun ws =>
        match listT ws with
        | .ok teams =>
          { workspace := ws, error := none,
            teams := teams.map (fun t => (t.key, t.name, t.id)) }
        | .error e => { workspace := ws, error := some e, teams := [] }) ∧
    ((listLoop listT names r).2).team_cache =
      names.foldl (fun cache ws =>
        match listT ws with
        | .ok teams =>
          teams.foldl (fun c t => dictInsert c (strUpper t.key) ws) cache
        | .error _ => cache) r.team_cache := by
  induction names with
  | nil => intro r _; exact ⟨rfl, rfl⟩
  | cons n rest ih =>
    intro r hmem
    obtain ⟨key, hkey⟩ :=
      Option.isSome_iff_exists.mp (hmem n (List.mem_cons_self n rest))
    obtain ⟨c, r1, hg⟩ := get_client_ok_of_lookup r n key hkey
    have hfr := get_client_frame r n c r1 hg
    unfold listLoop
    cases hlt : listT n with
    | ok teams =>
      cases hing : ingestTeams n teams r1.team_cache with
      | mk entries cache2 =>
        have hspec := ingestTeams_spec n teams r1.team_cache
        rw [hing] at hspec
        have hent : entries = teams.map (fun t => (t.key, t.name, t.id)) :=
          congrArg Prod.fst hspec
        have hc2 : cache2 =
            teams.foldl (fun c t => dictInsert c (strUpper t.key) n)
              r1.team_cache :=
          congrArg Prod.snd hspec
        have hmem1 : ∀ m ∈ rest,
            (dictLookup ({ r1 with team_cache := cache2 }).workspaces m).isSome := by
          intro m hm
          show (dictLookup r1.workspaces m).isSome
          rw [hfr.1]
          exact hmem m (List.mem_cons_of_mem n hm)
        have ihr := ih { r1 with team_cache := cache2 } hmem1
        cases hp : listLoop listT rest { r1 with team_cache := cache2 } with
        | mk reports r3 =>
          rw [hp] at ihr
          simp only [hg, hlt, hing, hp, List.map_cons, List.foldl_cons]
          constructor
          · rw [hent]
            exact congrArg (List.cons _) ihr.1
          · refine Eq.trans ihr.2 ?_
            have hcc : cache2 =
                List.foldl (fun c t => dictInsert c (strUpper t.key) n)
                  r.team_cache teams := by
              rw [hc2, hfr.2.1]
            rw [hcc]
    | error e =>
      have hmem1 : ∀ m ∈ rest, (dictLookup r1.workspaces m).isSome := by
        intro m hm
        rw [hfr.1]
        exact hmem m (List.mem_cons_of_mem n hm)
      have ihr := ih r1 hmem1
      cases hp : listLoop listT rest r1 with
      | mk reports r3 =>
        rw [hp] at ihr
        simp only [hg, hlt, hp, List.map_cons, List.foldl_cons]
        constructor
        · exact congrArg (List.cons _) ihr.1
        · exact Eq.trans ihr.2 (by rw [hfr.2.1])

/-- C8: `list_all_workspaces_with_teams` returns one entry per configured
workspace in configuration order — success entries carry every returned
team's key/name/id and write `cache[upper key] ↦ workspace` per team,
failure entries carry the error message with an empty team list — and the
loop continues past failures (the call never raises; successes and failures
mix in one result). -/
theorem claim_list_all_per_workspace (listT : ListOracle)
    (r : WorkspaceRegistry) :
    (list_all_workspaces_with_teams listT r).1 =
      (workspace_names r).map (fun ws =>
        match listT ws with
        | .ok teams =>
          { workspace := ws, error := none,
            teams := teams.map (fun t => (t.key, t.name, t.id)) }
        | .error e => { workspace := ws, error := some e, teams := [] }) ∧
    ((list_all_workspaces_with_teams listT r).2).team_cache =
      (workspace_names r).foldl (fun cache ws =>
        match listT ws with
        | .ok teams =>
          teams.foldl (fun c t => dictInsert c (strUpper t.key) ws) cache
        | .error _ => cache) r.team_cache := by
  have hmem : ∀ n ∈ workspace_names r, (dictLookup r.workspaces n).isSome := by
    intro n hn
    rw [← mem_map_fst_iff_dictLookup]
    exact hn
  exact listLoop_spec listT (workspace_names r) r hmem

/-! ### Reachability and the cache invariant -/

/-- Every workspace name appearing as a team-cache value is configured. -/
def cache_values_configured (r : WorkspaceRegistry) : Prop :=
  ∀ k w, dictLookup r.team_cache k = some w → w ∈ workspace_names r

/-- `resolve_client_for_team` preserves the cache invariant. -/
theorem resolve_team_preserves_inv (oracle : TeamOracle)
    (r : WorkspaceRegistry) (k : String) (h : cache_values_configured r) :
    cache_values_configured (resolve_client_for_team oracle r k).2.1 := by
  unfold resolve_client_for_team
  cases hc : dictLookup r.team_cache (strUpper k) with
  | some w =>
    simp only [hc]
    cases hg : get_client r w with
    | ok p =>
      obtain ⟨c, r1⟩ := p
      simp only [hg]
      show cache_values_configured r1
      have hfr := get_client_frame r w c r1 hg
      intro k0 w0 hl
      rw [hfr.2.1] at hl
      have hmem := h k0 w0 hl
      unfold workspace_names
      rw [hfr.1]
      exact hmem
    | error e =>
      simp only [hg]
      exact h
  | none =>
    simp only [hc]
    cases hp : probeLoop oracle (strUpper k) (workspace_names r) r with
    | mk res q =>
      obtain ⟨r1, evs⟩ := q
      have hws : r1.workspaces = r.workspaces := by
        have h1 := (probeLoop_frame oracle (strUpper k) (workspace_names r) r).1
        rw [hp] at h1
        exact h1
      have hinv : cache_values_configured r1 := by
        intro k0 w0 hl
        have hsub := probeLoop_cache_sub oracle (strUpper k)
          (workspace_names r) r k0 w0
        rw [hp] at hsub
        unfold workspace_names
        rw [hws]
        rcases hsub hl with h1 | h2
        · have := h k0 w0 h1
          unfold workspace_names at this
          exact this
        · unfold workspace_names at h2
          exact h2.2
      cases res with
      | some c =>
        simp only [hp]
        exact hinv
      | none =>
        simp only [hp]
        exact hinv

/-- `resolve_client_for_issue` preserves the cache invariant. -/
theorem resolve_issue_preserves_inv (reDigit : Char → Bool)
    (oracle : TeamOracle)
    (r : WorkspaceRegistry) (idf : String) (h : cache_values_configured r) :
    cache_values_configured
      (resolve_client_for_issue reDigit oracle r idf).2.1 := by
  unfold resolve_client_for_issue
  cases hp : parseTeamKey reDigit idf with
  | none => exact h
  | some tk => exact resolve_team_preserves_inv oracle r tk h

/-- `list_all_workspaces_with_teams` preserves the cache invariant. -/
theorem list_all_preserves_inv (listT : ListOracle) (r : WorkspaceRegistry)
    (h : cache_values_configured r) :
    cache_values_configured (list_all_workspaces_with_teams listT r).2 := by
  intro k0 w0 hl
  have hws := listLoop_workspaces listT (workspace_names r) r
  have hnames : workspace_names (list_all_workspaces_with_teams listT r).2 =
      workspace_names r := congrArg (List.map Prod.fst) hws
  have hl1 : dictLookup ((listLoop listT (workspace_names r) r).2).team_cache
      k0 = some w0 := hl
  have hsub := listLoop_cache_sub listT (workspace_names r) r k0 w0 hl1
  rw [hnames]
  rcases hsub with h1 | h2
  · exact h k0 w0 h1
  · exact h2

/-- Registry states reachable from construction by the public operations
(with arbitrary remote behaviour). -/
inductive Reachable : WorkspaceRegistry → Prop where
  | init (ws : List (String × String)) (url : String) (t : Nat) :
      Reachable (mkRegistry ws url t)
  | step_get_client (r : WorkspaceRegistry) (w : String) (c : LinearClient)
      (r1 : WorkspaceRegistry) :
      Reachable r → get_client r w = .ok (c, r1) → Reachable r1
  | step_resolve_team (oracle : TeamOracle) (r : WorkspaceRegistry)
      (k : String) :
      Reachable r → Reachable (resolve_client_for_team oracle r k).2.1
  | step_resolve_issue (reDigit : Char → Bool) (oracle : TeamOracle)
      (r : WorkspaceRegistry) (idf : String) :
      Reachable r →
      Reachable (resolve_client_for_issue reDigit oracle r idf).2.1
  | step_list_all (listT : ListOracle) (r : WorkspaceRegistry) :
      Reachable r → Reachable (list_all_workspaces_with_teams listT r).2
  | step_close_all (r : WorkspaceRegistry) :
      Reachable r → Reachable (close_all r).1

/-- C6: in every registry state reachable from construction by any sequence
of the public operations, every workspace name stored as a team-cache value
is one of the configured workspace names. -/
theorem claim_cache_values_configured (r : WorkspaceRegistry)
    (h : Reachable r) : cache_values_configured r := by
  induction h with
  | init ws url t =>
    intro k0 w0 hl
    cases hl
  | step_get_client r w c r1 _ hg ih =>
    have hfr := get_client_frame r w c r1 hg
    intro k0 w0 hl
    rw [hfr.2.1] at hl
    have hmem := ih k0 w0 hl
    unfold workspace_names
    rw [hfr.1]
    exact hmem
  | step_resolve_team oracle r k _ ih =>
    exact resolve_team_preserves_inv oracle r k ih
  | step_resolve_issue reDigit oracle r idf _ ih =>
    exact resolve_issue_preserves_inv reDigit oracle r idf ih
  | step_list_all listT r _ ih =>
    exact list_all_preserves_inv listT r ih
  | step_close_all r _ ih =>
    exact ih

theorem claim_cache_values_configured_witness :
    cache_values_configured
      ((resolve_client_for_team oracleBack regW "back").2.1) :=
  claim_cache_values_configured _
    (Reachable.step_resolve_team oracleBack regW "back"
      (Reachable.init [("ios", "lin_api_ios"), ("backend", "lin_api_backend")]
        "https://api.linear.app/graphql" 30))

/-! ### Cache transparency (refinement) -/

/-- Two resolution outcomes agree: both succeed with the client registered
under one common workspace name, or both fail with the same error message. -/
def SameResolution
    (p q : Except String LinearClient × WorkspaceRegistry × List Event) :
    Prop :=
  match p.1, q.1 with
  | .ok c1, .ok c2 =>
    ∃ w, dictLookup (p.2.1).clients w = some c1 ∧
      dictLookup (q.2.1).clients w = some c2
  | .error e1, .error e2 => e1 = e2
  | _, _ => False

/-- C3: when every cache entry is backed by its workspace's lookup (the
cached workspace is configured and its `get_team_by_key` returns a team for
that key) and team keys are owned by at most one configured workspace,
resolution through the cache agrees with resolution from an empty cache:
dropping the cache never changes the result, only its cost. -/
theorem claim_cache_drop_equiv (oracle : TeamOracle) (r : WorkspaceRegistry)
    (k : String)
    (hcoh : ∀ k0 w, dictLookup r.team_cache k0 = some w →
      w ∈ workspace_names r ∧ (oracle w k0).isFound = true)
    (huniq : ∀ k0 w1 w2, w1 ∈ workspace_names r → w2 ∈ workspace_names r →
      (oracle w1 k0).isFound = true → (oracle w2 k0).isFound = true →
      w1 = w2) :
    SameResolution (resolve_client_for_team oracle r k)
      (resolve_client_for_team oracle { r with team_cache := [] } k) := by
  have hnames0 :
      workspace_names { r with team_cache := ([] : List (String × String)) } =
        workspace_names r := rfl
  cases hhit : dictLookup r.team_cache (strUpper k) with
  | some w =>
    obtain ⟨hwmem, hwfound⟩ := hcoh (strUpper k) w hhit
    obtain ⟨key, hkey⟩ := Option.isSome_iff_exists.mp
      ((mem_map_fst_iff_dictLookup r.workspaces w).mp hwmem)
    obtain ⟨c1, r1, hg⟩ := get_client_ok_of_lookup r w key hkey
    have heq1 : resolve_client_for_team oracle r k = (.ok c1, r1, []) := by
      unfold resolve_client_for_team
      simp only [hhit, hg]
    obtain ⟨pre, w', post, hdec, hw', hpre⟩ :=
      exists_first_true (fun n => (oracle n (strUpper k)).isFound)
        (workspace_names r) ⟨w, hwmem, hwfound⟩
    have hw'mem : w' ∈ workspace_names r := by
      rw [hdec]
      exact List.mem_append_right _ (List.mem_cons_self _ _)
    have hww' : w' = w := huniq (strUpper k) w' w hw'mem hwmem hw' hwfound
    obtain ⟨c2, r2, heq2, hcl2, _⟩ :=
      resolve_team_found_core oracle { r with team_cache := [] } k w' pre post
        rfl (hnames0.trans hdec) hpre hw'
    rw [heq1, heq2]
    unfold SameResolution
    refine ⟨w, get_client_mem_clients r w c1 r1 hg, ?_⟩
    rw [← hww']
    exact hcl2
  | none =>
    have hcc := probeLoop_cache_congr oracle (strUpper k) (workspace_names r)
      r []
    cases hp : probeLoop oracle (strUpper k) (workspace_names r) r with
    | mk res q =>
      obtain ⟨r1, evs⟩ := q
      cases hq : probeLoop oracle (strUpper k) (workspace_names r)
          { r with team_cache := [] } with
      | mk res' q' =>
        obtain ⟨r2, evs'⟩ := q'
        rw [hp, hq] at hcc
        have hres : res' = res := hcc.1
        have hclients : r2.clients = r1.clients := hcc.2.2
        subst hres
        have hq' : probeLoop oracle (strUpper k)
            (workspace_names
              { r with team_cache := ([] : List (String × String)) })
            { r with team_cache := [] } = (res', r2, evs') := hq
        have hws1 : r1.workspaces = r.workspaces := by
          have h1 := (probeLoop_frame oracle (strUpper k)
            (workspace_names r) r).1
          rw [hp] at h1
          exact h1
        have hws2 : r2.workspaces = r.workspaces := by
          have h1 := (probeLoop_frame oracle (strUpper k)
            (workspace_names r) { r with team_cache := [] }).1
          rw [hq] at h1
          exact h1
        cases res' with
        | some c =>
          have heq1 : resolve_client_for_team oracle r k =
              (.ok c, r1, evs) := by
            unfold resolve_client_for_team
            simp only [hhit, hp]
          have heq2 : resolve_client_for_team oracle
              { r with team_cache := [] } k = (.ok c, r2, evs') := by
            unfold resolve_client_for_team
            simp only [dictLookup, hq']
          rw [heq1, heq2]
          unfold SameResolution
          obtain ⟨w, _, hcl⟩ :=
            probeLoop_some_client oracle (strUpper k) (workspace_names r) r c
              (by rw [hp])
          have hcl1 : dictLookup r1.clients w = some c := by
            rw [hp] at hcl
            exact hcl
          refine ⟨w, hcl1, ?_⟩
          rw [hclients]
          exact hcl1
        | none =>
          have heq1 : resolve_client_for_team oracle r k =
              (.error (teamNotFoundMsg k (workspace_names r1)), r1, evs) := by
            unfold resolve_client_for_team
            simp only [hhit, hp]
          have heq2 : resolve_client_for_team oracle
              { r with team_cache := [] } k =
              (.error (teamNotFoundMsg k (workspace_names r2)), r2, evs') := by
            unfold resolve_client_for_team
            simp only [dictLookup, hq']
          rw [heq1, heq2]
          unfold SameResolution
          show teamNotFoundMsg k (workspace_names r1) =
            teamNotFoundMsg k (workspace_names r2)
          have hn : workspace_names r1 = workspace_names r2 :=
            congrArg (List.map Prod.fst) (hws1.trans hws2.symm)
          rw [hn]

theorem claim_cache_drop_equiv_witness :
    SameResolution (resolve_client_for_team oracleBack regWcached "back")
      (resolve_client_for_team oracleBack
        { regWcached with team_cache := [] } "back") :=
  claim_cache_drop_equiv oracleBack regWcached "back"
    (by
      intro k0 w h
      have h' : (if ("BACK" : String) = k0 then some "backend"
          else dictLookup [] k0) = some w := h
      by_cases hb : ("BACK" : String) = k0
      · rw [if_pos hb] at h'
        have hw : "backend" = w := Option.some.inj h'
        subst hw
        subst hb
        constructor
        · have hwn : workspace_names regWcached = ["ios", "backend"] := rfl
          rw [hwn]
          exact List.mem_cons_of_mem _ (List.mem_cons_self _ _)
        · rfl
      · rw [if_neg hb] at h'
        exact absurd h' (by intro hcon; cases hcon))
    (by
      intro k0 w1 w2 h1 h2 hf1 hf2
      have hwn : workspace_names regWcached = ["ios", "backend"] := rfl
      rw [hwn] at h1 h2
      have hios : ∀ key, (oracleBack "ios" key).isFound = false :=
        fun key => rfl
      have hw1 : w1 = "backend" := by
        rcases List.mem_cons.mp h1 with ha | hb
        · subst ha
          rw [hios k0] at hf1
          cases hf1
        · exact List.mem_singleton.mp hb
      have hw2 : w2 = "backend" := by
        rcases List.mem_cons.mp h2 with ha | hb
        · subst ha
          rw [hios k0] at hf2
          cases hf2
        · exact List.mem_singleton.mp hb
      rw [hw1, hw2])

/-! ### Issue-identifier format -/

/-- The spec's strict reading of `^[A-Za-z]+-\d+$`: a nonempty letter run, a
dash, a nonempty digit run, then the exact end of the string (no trailing
whitespace of any kind).  Stated for comparison with the source's
`re.match`, whose `$` also accepts one trailing newline. -/
def strictIssueFormat (reDigit : Char → Bool) (s : String) : Bool :=
  let cs := s.toList
  let letters := cs.takeWhile isAsciiLetter
  match cs.dropWhile isAsciiLetter with
  | c :: ds =>
    decide (letters ≠ []) && decide (c = Char.ofNat 45) &&
      decide (ds ≠ []) && ds.all reDigit
  | [] => false

theorem digitsEnd_cons (reDigit : Char → Bool) (c x : Char)
    (cs : List Char) :
    digitsEnd reDigit (c :: x :: cs) =
      (reDigit c && digitsEnd reDigit (x :: cs)) := rfl

/-- A digit-headed run accepted by `digitsEnd` is a nonempty digit run
followed by nothing or by one newline. -/
theorem digitsEnd_decomp (reDigit : Char → Bool) (ds : List Char) :
    ∀ d : Char, reDigit d = true → digitsEnd reDigit ds = true →
    ∃ digits tail, d :: ds = digits ++ tail ∧ digits ≠ [] ∧
      (∀ c ∈ digits, reDigit c = true) ∧
      (tail = [] ∨ tail = [Char.ofNat 10]) := by
  induction ds with
  | nil =>
    intro d hd _
    refine ⟨[d], [], rfl, by simp, ?_, Or.inl rfl⟩
    intro c hc
    rw [List.mem_singleton] at hc
    subst hc
    exact hd
  | cons e ds' ih =>
    intro d hd h
    cases ds' with
    | nil =>
      have h' : (reDigit e || decide (e = Char.ofNat 10)) = true := h
      rw [Bool.or_eq_true] at h'
      rcases h' with he | hnl
      · refine ⟨[d, e], [], rfl, by simp, ?_, Or.inl rfl⟩
        intro c hc
        rcases List.mem_cons.mp hc with h1 | h2
        · subst h1; exact hd
        · rw [List.mem_singleton] at h2; subst h2; exact he
      · have hee : e = Char.ofNat 10 := of_decide_eq_true hnl
        subst hee
        refine ⟨[d], [Char.ofNat 10], rfl, by simp, ?_, Or.inr rfl⟩
        intro c hc
        rw [List.mem_singleton] at hc
        subst hc
        exact hd
    | cons f ds'' =>
      have h' : (reDigit e && digitsEnd reDigit (f :: ds'')) = true := h
      rw [Bool.and_eq_true] at h'
      obtain ⟨he, hrest⟩ := h'
      obtain ⟨digits, tail, hdec, hne, hall, htail⟩ := ih e he hrest
      refine ⟨d :: digits, tail, ?_, by simp, ?_, htail⟩
      · rw [List.cons_append, ← hdec]
      · intro c hc
        rcases List.mem_cons.mp hc with h1 | h2
        · subst h1; exact hd
        · exact hall c h2

/-- Converse: a digit run with an optional single trailing newline passes
`digitsEnd`. -/
theorem digitsEnd_of_decomp (reDigit : Char → Bool)
    (digits tail : List Char)
    (hall : ∀ c ∈ digits, reDigit c = true)
    (htail : tail = [] ∨ tail = [Char.ofNat 10]) :
    digitsEnd reDigit (digits ++ tail) = true := by
  induction digits with
  | nil =>
    rcases htail with h | h
    · subst h; rfl
    · subst h
      show (reDigit (Char.ofNat 10) ||
        decide (Char.ofNat 10 = Char.ofNat 10)) = true
      rw [show decide (Char.ofNat 10 = Char.ofNat 10) = true from by decide,
        Bool.or_true]
  | cons c cs ih =>
    have hc : reDigit c = true := hall c (List.mem_cons_self c cs)
    have ih' := ih (fun x hx => hall x (List.mem_cons_of_mem c hx))
    cases hcs : cs ++ tail with
    | nil =>
      show digitsEnd reDigit (c :: (cs ++ tail)) = true
      rw [hcs]
      show (reDigit c || decide (c = Char.ofNat 10)) = true
      rw [hc]
      rfl
    | cons x xs =>
      show digitsEnd reDigit (c :: (cs ++ tail)) = true
      rw [hcs, digitsEnd_cons, ← hcs, hc, ih']
      rfl

/-- `takeWhile`/`dropWhile` of a satisfying run followed by a failing
character. -/
theorem takeWhile_append_cons (P : Char → Bool) (L : List Char) (c : Char)
    (M : List Char) (hall : ∀ x ∈ L, P x = true) (hc : P c = false) :
    (L ++ c :: M).takeWhile P = L ∧ (L ++ c :: M).dropWhile P = c :: M := by
  induction L with
  | nil =>
    constructor
    · show (c :: M).takeWhile P = []
      simp [List.takeWhile_cons, hc]
    · show (c :: M).dropWhile P = c :: M
      simp [List.dropWhile_cons, hc]
  | cons a L' ih =>
    have ha : P a = true := hall a (List.mem_cons_self a L')
    have ih' := ih (fun x hx => hall x (List.mem_cons_of_mem a hx))
    constructor
    · show (a :: (L' ++ c :: M)).takeWhile P = a :: L'
      simp [List.takeWhile_cons, ha, ih'.1]
    · show (a :: (L' ++ c :: M)).dropWhile P = c :: M
      simp [List.dropWhile_cons, ha, ih'.2]

/-- What `re.match(r"^([A-Za-z]+)-(\d+)$", s)` accepts, declaratively: a
nonempty ASCII letter run, a dash, a nonempty digit run, and (from Python's
`$`) nothing or a single trailing newline; group 1 is the letter run. -/
theorem parseTeamKey_some_iff (reDigit : Char → Bool) (s tk : String) :
    parseTeamKey reDigit s = some tk ↔
      ∃ letters digits tail,
        s.toList = letters ++ Char.ofNat 45 :: (digits ++ tail) ∧
        letters ≠ [] ∧ (∀ c ∈ letters, isAsciiLetter c = true) ∧
        digits ≠ [] ∧ (∀ c ∈ digits, reDigit c = true) ∧
        (tail = [] ∨ tail = [Char.ofNat 10]) ∧
        tk = String.mk letters := by
  constructor
  · intro h
    unfold parseTeamKey at h
    cases hL : s.toList.takeWhile isAsciiLetter with
    | nil =>
      simp only [hL] at h
      exact Option.noConfusion h
    | cons l0 L' =>
      cases hR : s.toList.dropWhile isAsciiLetter with
      | nil =>
        simp only [hL, hR] at h
        exact Option.noConfusion h
      | cons c rest =>
        cases rest with
        | nil =>
          simp only [hL, hR] at h
          exact Option.noConfusion h
        | cons d ds =>
          simp only [hL, hR] at h
          split at h
          case isTrue hcond =>
            rw [Bool.and_eq_true, Bool.and_eq_true] at hcond
            obtain ⟨⟨h1', h2⟩, h3⟩ := hcond
            have hc45 : c = Char.ofNat 45 := of_decide_eq_true h1'
            have htk : tk = String.mk (l0 :: L') := (Option.some.inj h).symm
            obtain ⟨digits, tail, hdec, hne, hall, htail⟩ :=
              digitsEnd_decomp reDigit ds d h2 h3
            refine ⟨l0 :: L', digits, tail, ?_, by simp, ?_, hne, hall,
              htail, htk⟩
            · have hsplit :=
                List.takeWhile_append_dropWhile isAsciiLetter s.toList
              rw [hL, hR] at hsplit
              rw [← hsplit, hc45, hdec]
            · intro x hx
              have hx' : x ∈ s.toList.takeWhile isAsciiLetter := by
                rw [hL]
                exact hx
              exact List.mem_takeWhile_imp hx'
          case isFalse hcond => exact Option.noConfusion h
  · rintro ⟨letters, digits, tail, hdec, hne, hletters, hdne, hdigits,
      htail, htk⟩
    cases letters with
    | nil => exact absurd rfl hne
    | cons l0 L' =>
      cases digits with
      | nil => exact absurd rfl hdne
      | cons dg ds' =>
        have hdash : isAsciiLetter (Char.ofNat 45) = false := rfl
        obtain ⟨hTW, hDW⟩ := takeWhile_append_cons isAsciiLetter (l0 :: L')
          (Char.ofNat 45) ((dg :: ds') ++ tail) hletters hdash
        have hDW' : ((l0 :: L') ++
            Char.ofNat 45 :: ((dg :: ds') ++ tail)).dropWhile isAsciiLetter =
            Char.ofNat 45 :: dg :: (ds' ++ tail) := by
          rw [hDW, List.cons_append]
        have hdg : reDigit dg = true := hdigits dg (List.mem_cons_self dg ds')
        have hde : digitsEnd reDigit (ds' ++ tail) = true :=
          digitsEnd_of_decomp reDigit ds' tail
            (fun x hx => hdigits x (List.mem_cons_of_mem dg hx)) htail
        have h45 : decide (Char.ofNat 45 = Char.ofNat 45) = true := by decide
        unfold parseTeamKey
        simp only [hdec, hTW, hDW']
        simp [h45, hdg, hde, htk]

/-- A one-workspace registry (the repository's `single_registry` fixture). -/
def regSingle : WorkspaceRegistry :=
  mkRegistry [("default", "lin_api_single")] "https://api.linear.app/graphql" 30

/-- Oracle under which no workspace owns any team. -/
def oracleNone : TeamOracle := fun _ _ => .noTeam

/-- C5 counterexample: `"AB-1\n"` does not match `^[A-Za-z]+-\d+$` under the
strict end-of-string reading of `$` (a trailing newline is surrounding
whitespace), yet `resolve_client_for_issue` does not raise an invalid-format
error there: it attempts resolution and performs a remote lookup, because
Python's `re.match` anchor `$` also matches just before a single trailing
newline.  The input is ASCII-only, so instantiating `reDigit` with the
ASCII digits is exact here: every `\d` class contains `1` and contains
neither the letters, the dash nor the newline of this input. -/
theorem claim_resolve_issue_format_counterexample :
    strictIssueFormat Char.isDigit "AB-1\n" = false ∧
    (resolve_client_for_issue Char.isDigit oracleNone regSingle
      "AB-1\n").2.2 = [Event.lookup "default" "AB"] :=
  ⟨rfl, rfl⟩

/-- C5 (amended): `resolve_client_for_issue` raises an invalid-format error,
with no resolution attempt, no remote call and no state change, exactly when
the identifier does not match `^[A-Za-z]+-\d+$` under Python's `re`
semantics — a nonempty ASCII letter run, a dash, a nonempty run of the
engine's `\d` digits, then the end of the string or one trailing newline;
for every identifier that does match, it resolves exactly as
`resolve_client_for_team` on the letter run before the
dash.  The statement is parametric in `reDigit`, the digit class the host
regex engine gives `\d`, so it holds for the engine's full Unicode decimal
digit class, whatever its extent. -/
theorem claim_resolve_issue_format (reDigit : Char → Bool)
    (oracle : TeamOracle) (r : WorkspaceRegistry) (idf : String) :
    (parseTeamKey reDigit idf = none →
      resolve_client_for_issue reDigit oracle r idf =
        (.error (invalidFormatMsg idf), r, [])) ∧
    (∀ tk, parseTeamKey reDigit idf = some tk →
      resolve_client_for_issue reDigit oracle r idf =
        resolve_client_for_team oracle r tk) ∧
    (∀ tk, parseTeamKey reDigit idf = some tk ↔
      ∃ letters digits tail,
        idf.toList = letters ++ Char.ofNat 45 :: (digits ++ tail) ∧
        letters ≠ [] ∧ (∀ c ∈ letters, isAsciiLetter c = true) ∧
        digits ≠ [] ∧ (∀ c ∈ digits, reDigit c = true) ∧
        (tail = [] ∨ tail = [Char.ofNat 10]) ∧
        tk = String.mk letters) := by
  refine ⟨?_, ?_, fun tk => parseTeamKey_some_iff reDigit idf tk⟩
  · intro h
    unfold resolve_client_for_issue
    simp only [h]
  · intro tk h
    unfold resolve_client_for_issue
    simp only [h]

theorem claim_resolve_issue_format_witness :
    parseTeamKey Char.isDigit "AB-12" = some "AB" ∧
    resolve_client_for_issue Char.isDigit oracleNone regSingle "AB-12" =
      resolve_client_for_team oracleNone regSingle "AB" :=
  ⟨rfl,
   (claim_resolve_issue_format Char.isDigit oracleNone regSingle
     "AB-12").2.1 "AB" rfl⟩
